import Mathlib

/-!
Verification of the news/price alignment and correlation pipeline of
`src/news_stock_correlation.py` (class `NewsStockCorrelation`).

Modelling conventions:
* Calendar dates are natural numbers (days since an arbitrary epoch), so
  `date + timedelta(days=1)` becomes `d + 1`.
* Float close prices and sentiment scores are rationals `ℚ`; the special
  IEEE values produced by pandas division are made explicit by the `FVal`
  type (`nan`, `inf`, `neginf`, or a finite rational).
* The `while` loop of `adjust_to_trading_day` is embedded with an explicit
  fuel argument counting loop iterations; returning `none` means the loop
  is still running after `fuel` iterations.
-/

namespace NewsStock

/-- The largest date occurring in a trading-day calendar (0 for the empty
calendar).  In the source the calendar is `self.stock_df['Date'].dt.date.unique()`. -/
def maxDate (td : List ℕ) : ℕ := td.foldr max 0

/-- Fuel-indexed embedding of `adjust_to_trading_day` (src/news_stock_correlation.py
lines 67-71): `while date not in trading_days: date += timedelta(days=1)`.
`some d` means the loop exits with value `d` within `fuel` iterations;
`none` means the loop has not terminated after `fuel` iterations. -/
def adjust_to_trading_day (td : List ℕ) (fuel : ℕ) (date : ℕ) : Option ℕ :=
  match fuel with
  | 0 => none
  | fuel + 1 =>
      if date ∈ td then some date
      else adjust_to_trading_day td fuel (date + 1)

theorem maxDate_mem {td : List ℕ} (h : td ≠ []) : maxDate td ∈ td := by
  induction td with
  | nil => exact absurd rfl h
  | cons a l ih =>
      rcases l with _ | ⟨b, l'⟩
      · simp [maxDate]
      · have hx : maxDate (a :: b :: l') = max a (maxDate (b :: l')) := rfl
        rcases max_choice a (maxDate (b :: l')) with hm | hm
        · rw [hx, hm]; exact List.mem_cons_self _ _
        · rw [hx, hm]; exact List.mem_cons_of_mem _ (ih (by simp))

theorem le_maxDate {td : List ℕ} {x : ℕ} (h : x ∈ td) : x ≤ maxDate td := by
  induction td with
  | nil => simp at h
  | cons a l ih =>
      have hx : maxDate (a :: l) = max a (maxDate l) := rfl
      rcases List.mem_cons.1 h with rfl | hmem
      · rw [hx]; exact le_max_left _ _
      · rw [hx]; exact le_trans (ih hmem) (le_max_right _ _)

/-- Any member of the calendar in the window `[date, date + fuel)` makes the
loop terminate, and it returns the least calendar member `≥ date`. -/
theorem adjust_succeeds (td : List ℕ) :
    ∀ fuel date, (∃ x ∈ td, date ≤ x ∧ x < date + fuel) →
      ∃ e, adjust_to_trading_day td fuel date = some e ∧ e ∈ td ∧ date ≤ e ∧
        ∀ y ∈ td, date ≤ y → e ≤ y := by
  intro fuel
  induction fuel with
  | zero =>
      intro date ⟨x, _, hx1, hx2⟩
      omega
  | succ f ih =>
      intro date ⟨x, hxmem, hx1, hx2⟩
      by_cases hd : date ∈ td
      · exact ⟨date, by simp [adjust_to_trading_day, hd], hd, le_refl _,
          fun y _ hy => hy⟩
      · have hxne : x ≠ date := fun h => hd (h ▸ hxmem)
        obtain ⟨e, he, hmem, hle, hleast⟩ :=
          ih (date + 1) ⟨x, hxmem, by omega, by omega⟩
        refine ⟨e, ?_, hmem, by omega, ?_⟩
        · simpa [adjust_to_trading_day, hd] using he
        · intro y hy hdy
          have : y ≠ date := fun h => hd (h ▸ hy)
          exact hleast y hy (by omega)

/-- Any terminating run of the loop returns a calendar member that is the
least one at or after the start date. -/
theorem adjust_sound (td : List ℕ) :
    ∀ fuel date e, adjust_to_trading_day td fuel date = some e →
      e ∈ td ∧ date ≤ e ∧ ∀ y ∈ td, date ≤ y → e ≤ y := by
  intro fuel
  induction fuel with
  | zero => intro date e h; simp [adjust_to_trading_day] at h
  | succ f ih =>
      intro date e h
      by_cases hd : date ∈ td
      · simp [adjust_to_trading_day, hd] at h
        exact h ▸ ⟨hd, le_refl _, fun y _ hy => hy⟩
      · simp [adjust_to_trading_day, hd] at h
        obtain ⟨hmem, hle, hleast⟩ := ih (date + 1) e h
        refine ⟨hmem, by omega, fun y hy hdy => ?_⟩
        have : y ≠ date := fun hh => hd (hh ▸ hy)
        exact hleast y hy (by omega)

/-- If every calendar member is strictly before the start date, the loop
never terminates, no matter how many iterations it is allowed. -/
theorem adjust_stuck (td : List ℕ) :
    ∀ fuel date, (∀ x ∈ td, x < date) →
      adjust_to_trading_day td fuel date = none := by
  intro fuel
  induction fuel with
  | zero => intro date _; rfl
  | succ f ih =>
      intro date hall
      have hd : date ∉ td := fun h => lt_irrefl date (hall date h)
      simp [adjust_to_trading_day, hd]
      exact ih (date + 1) (fun x hx => by have := hall x hx; omega)

/-- C1. For a non-empty calendar `td` and a news date `t ≤ maxDate td`, the
alignment loop terminates (with fuel `maxDate td + 1 - t`) and returns the
smallest trading day `d ∈ td` with `t ≤ d`; every other terminating run
returns the same day; if `t` is itself a trading day the result is `t`; and
aligning the already-aligned date `d` returns `d` (idempotence). -/
theorem align_least_trading_day (td : List ℕ) (t : ℕ)
    (hne : td ≠ []) (ht : t ≤ maxDate td) :
    ∃ d, adjust_to_trading_day td (maxDate td + 1 - t) t = some d ∧
      d ∈ td ∧ t ≤ d ∧ (∀ y ∈ td, t ≤ y → d ≤ y) ∧
      (∀ fuel e, adjust_to_trading_day td fuel t = some e → e = d) ∧
      (t ∈ td → d = t) ∧
      (∀ fuel, 0 < fuel → adjust_to_trading_day td fuel d = some d) := by
  obtain ⟨d, hrun, hmem, hle, hleast⟩ :=
    adjust_succeeds td (maxDate td + 1 - t) t
      ⟨maxDate td, maxDate_mem hne, ht, by omega⟩
  refine ⟨d, hrun, hmem, hle, hleast, ?_, ?_, ?_⟩
  · intro fuel e he
    obtain ⟨hmem', hle', hleast'⟩ := adjust_sound td fuel t e he
    exact le_antisymm (hleast' d hmem hle) (hleast e hmem' hle')
  · intro htd
    exact le_antisymm (hleast t htd (le_refl t)) hle
  · intro fuel hfuel
    match fuel, hfuel with
    | f + 1, _ => simp [adjust_to_trading_day, hmem]

/-- Witness for C1 on the calendar `[3, 5]` and news date `4`: the aligner
returns `5`, the least trading day at or after `4`. -/
theorem align_least_trading_day_witness :
    ∃ d, adjust_to_trading_day [3, 5] (maxDate [3, 5] + 1 - 4) 4 = some d ∧
      d ∈ [3, 5] ∧ 4 ≤ d ∧ (∀ y ∈ [3, 5], 4 ≤ y → d ≤ y) ∧
      (∀ fuel e, adjust_to_trading_day [3, 5] fuel 4 = some e → e = d) ∧
      (4 ∈ [3, 5] → d = 4) ∧
      (∀ fuel, 0 < fuel → adjust_to_trading_day [3, 5] fuel d = some d) :=
  align_least_trading_day [3, 5] 4 (by simp) (by simp [maxDate])

/-- C2. For the calendar `[3, 5]` (last trading day `5`) and a news event
dated `6`, the `while` loop of `adjust_to_trading_day` has not found a
trading day after any number of iterations: the code loops unboundedly
instead of failing with an `AlignmentError` within a bounded lookahead. -/
theorem align_after_last_day_never_terminates :
    ∀ fuel, adjust_to_trading_day [3, 5] fuel 6 = none := fun fuel =>
  adjust_stuck [3, 5] fuel 6 (by decide)

/-- A pandas float cell: either a finite rational or one of the IEEE
special values `nan`, `inf`, `-inf` that numpy division can produce. -/
inductive FVal where
  | nan : FVal
  | inf : FVal
  | neginf : FVal
  | val : ℚ → FVal
deriving DecidableEq, Repr

/-- One step of `self.stock_df['Close'].pct_change() * 100`
(src/news_stock_correlation.py line 106): numpy computes
`(curr - prev) / prev * 100`, and division by a zero previous close yields
`inf`, `-inf` or `nan` according to the sign of the numerator. -/
def pctChangeAt (prev curr : ℚ) : FVal :=
  if prev = 0 then
    if 0 < curr then FVal.inf
    else if curr < 0 then FVal.neginf
    else FVal.nan
  else FVal.val ((curr - prev) / prev * 100)

/-- `pct_change` applied to every close after the first, each paired with
its predecessor. -/
def pctChangeTail (prev : ℚ) : List ℚ → List FVal
  | [] => []
  | c :: rest => pctChangeAt prev c :: pctChangeTail c rest

/-- The full `daily_return` column: `NaN` for the first row (no prior
close), then the pairwise percentage change. -/
def dailyReturns : List ℚ → List FVal
  | [] => []
  | c :: rest => FVal.nan :: pctChangeTail c rest

/-- The stock table after `calculate_daily_metrics` adds the
`daily_return` and `date_only` columns (lines 106-107): each row is
`(date_only, Close, daily_return)`. -/
def stock_with_returns (rows : List (ℕ × ℚ)) : List (ℕ × ℚ × FVal) :=
  List.zipWith (fun r v => (r.1, r.2, v)) rows (dailyReturns (rows.map Prod.snd))

theorem pctChangeTail_eq_zipWith (prev : ℚ) (cs : List ℚ) :
    pctChangeTail prev cs = List.zipWith pctChangeAt (prev :: cs) cs := by
  induction cs generalizing prev with
  | nil => rfl
  | cons c rest ih => simp [pctChangeTail, List.zipWith, ih c]

theorem dailyReturns_length (cs : List ℚ) :
    (dailyReturns cs).length = cs.length := by
  cases cs with
  | nil => rfl
  | cons c rest =>
      simp [dailyReturns, pctChangeTail_eq_zipWith]

theorem stock_with_returns_length (rows : List (ℕ × ℚ)) :
    (stock_with_returns rows).length = rows.length := by
  simp [stock_with_returns, dailyReturns_length]

theorem dailyReturns_get?_zero (c : ℚ) (cs : List ℚ) :
    (dailyReturns (c :: cs)).get? 0 = some FVal.nan := rfl

theorem dailyReturns_get?_succ (cs : List ℚ) (i : ℕ) (c c' : ℚ)
    (hc : cs.get? i = some c) (hc' : cs.get? (i + 1) = some c') :
    (dailyReturns cs).get? (i + 1) = some (pctChangeAt c c') := by
  cases cs with
  | nil => simp at hc
  | cons a rest =>
      have h2 : rest.get? i = some c' := hc'
      have hshow : (dailyReturns (a :: rest)).get? (i + 1) =
          (pctChangeTail a rest).get? i := rfl
      rw [hshow, pctChangeTail_eq_zipWith, List.get?_zipWith', hc, h2]
      rfl

/-- C5. On a price table sorted strictly ascending by date with non-zero
closes, the return calculator emits one row per input bar, keeping date and
close; the first row's return is unset (`NaN`); every later row's return is
`(close[i] - close[i-1]) / close[i-1] * 100`; and on the close series
`[100, 110, 99]` the returns are `[unset, +10, -10]`. -/
theorem daily_returns_formula (rows : List (ℕ × ℚ))
    (hsort : (rows.map Prod.fst).Pairwise (· < ·))
    (hnz : ∀ r ∈ rows, r.2 ≠ 0) :
    (stock_with_returns rows).length = rows.length ∧
    (∀ d c, rows.get? 0 = some (d, c) →
      (stock_with_returns rows).get? 0 = some (d, c, FVal.nan)) ∧
    (∀ i d c d' c', rows.get? i = some (d, c) → rows.get? (i + 1) = some (d', c') →
      (stock_with_returns rows).get? (i + 1) =
        some (d', c', FVal.val ((c' - c) / c * 100))) ∧
    dailyReturns [100, 110, 99] = [FVal.nan, FVal.val 10, FVal.val (-10)] := by
  refine ⟨stock_with_returns_length rows, ?_, ?_,
    by norm_num [dailyReturns, pctChangeTail, pctChangeAt]⟩
  · intro d c h0
    cases rows with
    | nil => simp at h0
    | cons r rest =>
        have : r = (d, c) := by simpa using h0
        subst this
        rfl
  · intro i d c d' c' hi hi'
    have hclose : (rows.map Prod.snd).get? i = some c := by
      rw [List.get?_map, hi]; rfl
    have hclose' : (rows.map Prod.snd).get? (i + 1) = some c' := by
      rw [List.get?_map, hi']; rfl
    have hret := dailyReturns_get?_succ (rows.map Prod.snd) i c c' hclose hclose'
    have hcnz : c ≠ 0 := by
      have hmem : (d, c) ∈ rows := List.get?_mem hi
      exact hnz (d, c) hmem
    unfold stock_with_returns
    rw [List.get?_zipWith', hi', hret]
    simp [pctChangeAt, hcnz]

/-- Witness for C5 on the three-bar table with dates `[1, 2, 3]` and closes
`[100, 110, 99]`. -/
theorem daily_returns_formula_witness :
    (stock_with_returns [(1, 100), (2, 110), (3, 99)]).length =
      ([(1, 100), (2, 110), (3, 99)] : List (ℕ × ℚ)).length ∧
    (∀ d c, ([(1, 100), (2, 110), (3, 99)] : List (ℕ × ℚ)).get? 0 = some (d, c) →
      (stock_with_returns [(1, 100), (2, 110), (3, 99)]).get? 0 =
        some (d, c, FVal.nan)) ∧
    (∀ i d c d' c',
      ([(1, 100), (2, 110), (3, 99)] : List (ℕ × ℚ)).get? i = some (d, c) →
      ([(1, 100), (2, 110), (3, 99)] : List (ℕ × ℚ)).get? (i + 1) = some (d', c') →
      (stock_with_returns [(1, 100), (2, 110), (3, 99)]).get? (i + 1) =
        some (d', c', FVal.val ((c' - c) / c * 100))) ∧
    dailyReturns [100, 110, 99] = [FVal.nan, FVal.val 10, FVal.val (-10)] :=
  daily_returns_formula [(1, 100), (2, 110), (3, 99)] (by decide) (by decide)

/-- The sentiment scores of the news events aligned to day `d`
(the group selected by `groupby('aligned_date')['sentiment']`).  A news
event is a pair `(aligned_date, sentiment)`; the headline text and the
external TextBlob scorer are outside the core, so events enter already
scored. -/
def sentOn (news : List (ℕ × ℚ)) (d : ℕ) : List ℚ :=
  (news.filter (fun e => e.1 = d)).map Prod.snd

/-- The distinct aligned dates, sorted ascending: the group keys of
`news_df.groupby('aligned_date')` (pandas `groupby` sorts group keys). -/
def groupKeys (news : List (ℕ × ℚ)) : List ℕ :=
  ((news.map Prod.fst).dedup).insertionSort (· ≤ ·)

/-- Embedding of
`news_df.groupby('aligned_date')['sentiment'].agg(['mean', 'count'])`
(src/news_stock_correlation.py lines 102-103): one row
`(aligned_date, avg_sentiment, news_count)` per distinct aligned date,
rows sorted ascending by date. -/
def daily_sentiment (news : List (ℕ × ℚ)) : List (ℕ × ℚ × ℕ) :=
  (groupKeys news).map
    (fun d => (d, (sentOn news d).sum / ((sentOn news d).length : ℚ),
      (sentOn news d).length))

theorem groupKeys_nodup (news : List (ℕ × ℚ)) : (groupKeys news).Nodup :=
  (List.perm_insertionSort _ _).nodup_iff.2 (List.nodup_dedup _)

theorem groupKeys_sorted (news : List (ℕ × ℚ)) :
    (groupKeys news).Sorted (· < ·) :=
  (List.sorted_insertionSort _ _).lt_of_le (groupKeys_nodup news)

theorem mem_groupKeys {news : List (ℕ × ℚ)} {d : ℕ} :
    d ∈ groupKeys news ↔ d ∈ news.map Prod.fst := by
  unfold groupKeys
  rw [(List.perm_insertionSort _ _).mem_iff, List.mem_dedup]

theorem daily_sentiment_keys (news : List (ℕ × ℚ)) :
    (daily_sentiment news).map Prod.fst = groupKeys news := by
  unfold daily_sentiment
  rw [List.map_map]
  rw [show (Prod.fst ∘ fun d : ℕ =>
      ((d, (sentOn news d).sum / ((sentOn news d).length : ℚ),
        (sentOn news d).length) : ℕ × ℚ × ℕ)) = id from rfl]
  exact List.map_id _

theorem daily_sentiment_keys_sorted (news : List (ℕ × ℚ)) :
    ((daily_sentiment news).map Prod.fst).Sorted (· < ·) := by
  rw [daily_sentiment_keys]
  exact groupKeys_sorted news

/-- In a duplicate-free list, filtering for one of its members keeps
exactly that member. -/
theorem filter_eq_self_of_nodup {l : List ℕ} {d : ℕ}
    (hnd : l.Nodup) (hd : d ∈ l) : l.filter (fun x => x = d) = [d] := by
  induction l with
  | nil => simp at hd
  | cons a rest ih =>
      by_cases ha : a = d
      · subst ha
        have hnot : a ∉ rest := (List.nodup_cons.1 hnd).1
        have hrest : rest.filter (fun x => x = a) = [] := by
          rw [List.filter_eq_nil_iff]
          intro x hx
          simp only [decide_eq_true_eq]
          exact fun h => hnot (h ▸ hx)
        simp [List.filter_cons, hrest]
      · have hmem : d ∈ rest := by
          rcases List.mem_cons.1 hd with h | h
          · exact absurd h.symm ha
          · exact h
        have hrec := ih (List.nodup_cons.1 hnd).2 hmem
        simp [List.filter_cons, ha, hrec]

/-- C7. For every aligned date `d` occurring among the news events, the
aggregator's output has exactly one row keyed `d`, whose `avg_sentiment`
is the arithmetic mean (sum divided by count) of the sentiment scores of
the events aligned to `d` and whose `news_count` is the number of such
events; and every output row's key is an occurring aligned date. -/
theorem daily_sentiment_spec (news : List (ℕ × ℚ)) (d : ℕ)
    (hd : d ∈ news.map Prod.fst) :
    (daily_sentiment news).filter (fun s => s.1 = d) =
      [(d, (sentOn news d).sum / ((sentOn news d).length : ℚ),
        (sentOn news d).length)] ∧
    ∀ s ∈ daily_sentiment news, s.1 ∈ news.map Prod.fst := by
  constructor
  · unfold daily_sentiment
    rw [List.filter_map]
    rw [show ((fun s : ℕ × ℚ × ℕ => decide (s.1 = d)) ∘ fun k : ℕ =>
        ((k, (sentOn news k).sum / ((sentOn news k).length : ℚ),
          (sentOn news k).length) : ℕ × ℚ × ℕ))
        = (fun x : ℕ => decide (x = d)) from rfl]
    have hkeys : (groupKeys news).filter (fun x => x = d) = [d] :=
      filter_eq_self_of_nodup (groupKeys_nodup news) (mem_groupKeys.2 hd)
    rw [hkeys]
    rfl
  · intro s hs
    unfold daily_sentiment at hs
    obtain ⟨k, hk, hks⟩ := List.mem_map.1 hs
    have : s.1 = k := by rw [← hks]
    rw [this]
    exact mem_groupKeys.1 hk

/-- Witness for C7 on the news list `[(2, 1), (2, 0), (5, 1/2)]` at day 2. -/
theorem daily_sentiment_spec_witness :
    (daily_sentiment [(2, 1), (2, 0), (5, 1/2)]).filter (fun s => s.1 = 2) =
      [(2, (sentOn [(2, 1), (2, 0), (5, 1/2)] 2).sum /
        ((sentOn [(2, 1), (2, 0), (5, 1/2)] 2).length : ℚ),
        (sentOn [(2, 1), (2, 0), (5, 1/2)] 2).length)] ∧
    ∀ s ∈ daily_sentiment [(2, 1), (2, 0), (5, 1/2)],
      s.1 ∈ ([(2, 1), (2, 0), (5, 1/2)] : List (ℕ × ℚ)).map Prod.fst :=
  daily_sentiment_spec [(2, 1), (2, 0), (5, 1/2)] 2 (by decide)

/-- C8. The aggregator's output is the same table for any permutation of
the input news events: group keys come from a sorted duplicate-free set,
and each row's mean and count only depend on the multiset of events. -/
theorem groupKeys_perm {l l' : List (ℕ × ℚ)} (h : l.Perm l') :
    groupKeys l = groupKeys l' := by
  refine List.eq_of_perm_of_sorted ?_ (List.sorted_insertionSort _ _)
    (List.sorted_insertionSort _ _)
  exact ((List.perm_insertionSort _ _).trans ((h.map Prod.fst).dedup)).trans
    (List.perm_insertionSort _ _).symm

theorem daily_sentiment_perm_invariant (l l' : List (ℕ × ℚ))
    (h : l.Perm l') : daily_sentiment l = daily_sentiment l' := by
  have hsent : ∀ d, (sentOn l d).Perm (sentOn l' d) :=
    fun d => (h.filter _).map Prod.snd
  unfold daily_sentiment
  rw [groupKeys_perm h]
  exact List.map_congr_left (fun d _ => by
    rw [(hsent d).sum_eq, (hsent d).length_eq])

/-- Witness for C8 on a two-event list and its transposition. -/
theorem daily_sentiment_perm_invariant_witness :
    daily_sentiment [(1, 1), (2, 1/2)] = daily_sentiment [(2, 1/2), (1, 1)] :=
  daily_sentiment_perm_invariant _ _ (List.Perm.swap _ _ _)

/-- One row of `self.merged_df` (src/news_stock_correlation.py lines
110-116): sentiment summary columns, the return and close from the stock
table, keyed by the shared trading day (`date_only`). -/
structure MergedRow where
  trading_day : ℕ
  avg_sentiment : ℚ
  news_count : ℕ
  daily_return : FVal
  close : ℚ
deriving DecidableEq, Repr

/-- Embedding of `pd.merge(daily_sentiment, stock_df[...], left_index=True,
right_on='date_only', how='inner')`: for each left row in order, all stock
rows with the same date in their order. -/
def merge_inner (sents : List (ℕ × ℚ × ℕ)) (stock : List (ℕ × ℚ × FVal)) :
    List MergedRow :=
  sents.flatMap (fun s => (stock.filter (fun r => r.1 = s.1)).map
    (fun r => ⟨s.1, s.2.1, s.2.2, r.2.2, r.2.1⟩))

/-- Embedding of `self.merged_df.dropna(subset=['daily_return'])` (line
119): only rows whose return cell is literally `NaN` are removed. -/
def dropna_returns (rows : List MergedRow) : List MergedRow :=
  rows.filter (fun row => row.daily_return ≠ FVal.nan)

/-- The full `calculate_daily_metrics` (lines 96-120): aggregate news by
aligned date, compute the return column, inner-merge on the trading day and
drop rows with `NaN` return. -/
def calculate_daily_metrics (news : List (ℕ × ℚ)) (stock : List (ℕ × ℚ)) :
    List MergedRow :=
  dropna_returns (merge_inner (daily_sentiment news) (stock_with_returns stock))

theorem mem_merge_inner {sents : List (ℕ × ℚ × ℕ)} {stock : List (ℕ × ℚ × FVal)}
    {row : MergedRow} :
    row ∈ merge_inner sents stock ↔
      ∃ s ∈ sents, ∃ r ∈ stock, r.1 = s.1 ∧
        row = ⟨s.1, s.2.1, s.2.2, r.2.2, r.2.1⟩ := by
  simp only [merge_inner, List.mem_flatMap, List.mem_map, List.mem_filter,
    decide_eq_true_eq]
  constructor
  · rintro ⟨s, hs, r, ⟨hr, hkey⟩, hrow⟩
    exact ⟨s, hs, r, hr, hkey, hrow.symm⟩
  · rintro ⟨s, hs, r, hr, hkey, hrow⟩
    exact ⟨s, hs, r, ⟨hr, hkey⟩, hrow.symm⟩

/-- A list of length at most one is vacuously pairwise. -/
theorem pairwise_of_length_le_one {α : Type} {R : α → α → Prop} {l : List α}
    (h : l.length ≤ 1) : l.Pairwise R := by
  match l, h with
  | [], _ => constructor
  | [a], _ => simp

/-- With duplicate-free keys, at most one row matches a given key. -/
theorem length_filter_key_le_one {α : Type} (key : α → ℕ) :
    ∀ (l : List α), (l.map key).Nodup →
      ∀ k, (l.filter (fun r => key r = k)).length ≤ 1 := by
  intro l
  induction l with
  | nil => intro _ k; simp
  | cons a t ih =>
      intro hnd k
      have h1 : key a ∉ t.map key := by
        simpa using (List.nodup_cons.1 hnd).1
      have h2 := ih (List.nodup_cons.1 hnd).2
      by_cases hk : key a = k
      · subst hk
        have ht : t.filter (fun r => key r = key a) = [] := by
          rw [List.filter_eq_nil_iff]
          intro x hx
          simp only [decide_eq_true_eq]
          intro he
          exact h1 (he ▸ List.mem_map_of_mem key hx)
        simp [List.filter_cons, ht]
      · simpa [List.filter_cons, hk] using h2 k

/-- Splitting a filtered length by an independent boolean condition. -/
theorem length_filter_split {α : Type} (p q : α → Bool) (l : List α) :
    (l.filter (fun a => p a && q a)).length +
      (l.filter (fun a => (!p a) && q a)).length = (l.filter q).length := by
  induction l with
  | nil => rfl
  | cons a t ih =>
      cases hp : p a <;> cases hq : q a <;>
        simp [List.filter_cons, hp, hq] <;> omega

/-- A sum of naturals each at most one is at most the number of summands. -/
theorem sum_le_length {l : List ℕ} (h : ∀ x ∈ l, x ≤ 1) :
    l.sum ≤ l.length := by
  induction l with
  | nil => simp
  | cons a t ih =>
      have := h a (List.mem_cons_self a t)
      have := ih (fun x hx => h x (List.mem_cons_of_mem a hx))
      simp only [List.sum_cons, List.length_cons]
      omega

/-- Over duplicate-free keys, the per-key filtered counts sum to at most
the total count. -/
theorem sum_filter_key_le {α : Type} (key : α → ℕ) (P : α → Bool) :
    ∀ (ks : List ℕ), ks.Nodup → ∀ (l : List α),
      (ks.map (fun k => (l.filter (fun r => key r = k && P r)).length)).sum ≤
        (l.filter P).length := by
  intro ks
  induction ks with
  | nil => intro _ l; simp
  | cons k rest ih =>
      intro hnd l
      have hknotin : k ∉ rest := (List.nodup_cons.1 hnd).1
      have hshift : ∀ k' ∈ rest,
          (l.filter (fun r => key r = k' && P r)).length =
            ((l.filter (fun r => !(key r = k))).filter
              (fun r => key r = k' && P r)).length := by
        intro k' hk'
        have hne : k' ≠ k := fun h => hknotin (h ▸ hk')
        rw [List.filter_filter]
        congr 1
        apply List.filter_congr
        intro r _
        cases hrk : decide (key r = k') <;> cases hrkk : decide (key r = k) <;>
          simp_all
      have hmapeq :
          rest.map (fun k' => (l.filter (fun r => key r = k' && P r)).length) =
          rest.map (fun k' => ((l.filter (fun r => !(key r = k))).filter
            (fun r => key r = k' && P r)).length) :=
        List.map_congr_left hshift
      have hih := ih (List.nodup_cons.1 hnd).2 (l.filter (fun r => !(key r = k)))
      have hsplit := length_filter_split (fun r => decide (key r = k)) P l
      have hcompl : ((l.filter (fun r => !(key r = k))).filter P).length =
          (l.filter (fun a => (!decide (key a = k)) && P a)).length := by
        rw [List.filter_filter]
        congr 1
        exact List.filter_congr (fun r _ => Bool.and_comm _ _)
      simp only [List.map_cons, List.sum_cons, hmapeq]
      omega

theorem dropna_merge_group (stock : List (ℕ × ℚ × FVal)) (s : ℕ × ℚ × ℕ) :
    dropna_returns ((stock.filter (fun r => r.1 = s.1)).map
      (fun r => (⟨s.1, s.2.1, s.2.2, r.2.2, r.2.1⟩ : MergedRow))) =
    (stock.filter (fun r => r.1 = s.1 && r.2.2 ≠ FVal.nan)).map
      (fun r => (⟨s.1, s.2.1, s.2.2, r.2.2, r.2.1⟩ : MergedRow)) := by
  unfold dropna_returns
  rw [List.filter_map, List.filter_filter]
  congr 1
  exact List.filter_congr (fun r _ => Bool.and_comm _ _)

theorem merge_inner_cons (s : ℕ × ℚ × ℕ) (sents : List (ℕ × ℚ × ℕ))
    (stock : List (ℕ × ℚ × FVal)) :
    merge_inner (s :: sents) stock =
      ((stock.filter (fun r => r.1 = s.1)).map
        (fun r => (⟨s.1, s.2.1, s.2.2, r.2.2, r.2.1⟩ : MergedRow))) ++
      merge_inner sents stock := by
  simp [merge_inner]

theorem dropna_merge_pairwise (stock : List (ℕ × ℚ × FVal))
    (hr : (stock.map Prod.fst).Nodup) :
    ∀ (sents : List (ℕ × ℚ × ℕ)), (sents.map Prod.fst).Pairwise (· < ·) →
      (dropna_returns (merge_inner sents stock)).Pairwise
        (fun a b => a.trading_day < b.trading_day) := by
  intro sents
  induction sents with
  | nil =>
      intro _
      simp [merge_inner, dropna_returns]
  | cons s rest ih =>
      intro hs
      rw [List.map_cons, List.pairwise_cons] at hs
      obtain ⟨hlt, hrest⟩ := hs
      have hsplit : dropna_returns (merge_inner (s :: rest) stock) =
          dropna_returns ((stock.filter (fun r => r.1 = s.1)).map
            (fun r => (⟨s.1, s.2.1, s.2.2, r.2.2, r.2.1⟩ : MergedRow))) ++
          dropna_returns (merge_inner rest stock) := by
        rw [merge_inner_cons]
        unfold dropna_returns
        exact List.filter_append _ _
      rw [hsplit, List.pairwise_append]
      refine ⟨?_, ih hrest, ?_⟩
      · apply pairwise_of_length_le_one
        calc (dropna_returns ((stock.filter (fun r => r.1 = s.1)).map
                (fun r => (⟨s.1, s.2.1, s.2.2, r.2.2, r.2.1⟩ : MergedRow)))).length
            ≤ ((stock.filter (fun r => r.1 = s.1)).map
                (fun r => (⟨s.1, s.2.1, s.2.2, r.2.2, r.2.1⟩ : MergedRow))).length :=
              List.length_filter_le _ _
          _ = (stock.filter (fun r => r.1 = s.1)).length := List.length_map _ _
          _ ≤ 1 := length_filter_key_le_one Prod.fst stock hr s.1
      · intro a ha b hb
        have ha' : a ∈ (stock.filter (fun r => r.1 = s.1)).map
            (fun r => (⟨s.1, s.2.1, s.2.2, r.2.2, r.2.1⟩ : MergedRow)) :=
          List.mem_of_mem_filter ha
        obtain ⟨r, _, hra⟩ := List.mem_map.1 ha'
        have hafst : a.trading_day = s.1 := by rw [← hra]
        have hb' : b ∈ merge_inner rest stock := List.mem_of_mem_filter hb
        obtain ⟨s', hs', r', _, _, hbr⟩ := mem_merge_inner.1 hb'
        have hbfst : b.trading_day = s'.1 := by rw [hbr]
        rw [hafst, hbfst]
        exact hlt s'.1 (List.mem_map_of_mem Prod.fst hs')

theorem dropna_merge_length_le_sents (sents : List (ℕ × ℚ × ℕ))
    (stock : List (ℕ × ℚ × FVal)) (hr : (stock.map Prod.fst).Nodup) :
    (dropna_returns (merge_inner sents stock)).length ≤ sents.length := by
  calc (dropna_returns (merge_inner sents stock)).length
      ≤ (merge_inner sents stock).length := List.length_filter_le _ _
    _ = (sents.map (fun s => ((stock.filter (fun r => r.1 = s.1)).map
          (fun r => (⟨s.1, s.2.1, s.2.2, r.2.2, r.2.1⟩ : MergedRow))).length)).sum :=
        List.length_flatMap _ _
    _ ≤ (sents.map (fun s => ((stock.filter (fun r => r.1 = s.1)).map
          (fun r => (⟨s.1, s.2.1, s.2.2, r.2.2, r.2.1⟩ : MergedRow))).length)).length := by
        apply sum_le_length
        intro x hx
        obtain ⟨s, _, rfl⟩ := List.mem_map.1 hx
        rw [List.length_map]
        exact length_filter_key_le_one Prod.fst stock hr s.1
    _ = sents.length := List.length_map _ _

theorem dropna_merge_length_eq (sents : List (ℕ × ℚ × ℕ))
    (stock : List (ℕ × ℚ × FVal)) :
    (dropna_returns (merge_inner sents stock)).length =
      ((sents.map Prod.fst).map (fun k =>
        (stock.filter (fun r => r.1 = k && r.2.2 ≠ FVal.nan)).length)).sum := by
  induction sents with
  | nil => simp [merge_inner, dropna_returns]
  | cons s rest ih =>
      have hsplit : dropna_returns (merge_inner (s :: rest) stock) =
          dropna_returns ((stock.filter (fun r => r.1 = s.1)).map
            (fun r => (⟨s.1, s.2.1, s.2.2, r.2.2, r.2.1⟩ : MergedRow))) ++
          dropna_returns (merge_inner rest stock) := by
        rw [merge_inner_cons]
        unfold dropna_returns
        exact List.filter_append _ _
      rw [hsplit, List.length_append, dropna_merge_group, List.length_map, ih]
      simp

theorem dropna_merge_length_le_valid (sents : List (ℕ × ℚ × ℕ))
    (stock : List (ℕ × ℚ × FVal)) (hsnd : (sents.map Prod.fst).Nodup) :
    (dropna_returns (merge_inner sents stock)).length ≤
      (stock.filter (fun r => r.2.2 ≠ FVal.nan)).length := by
  rw [dropna_merge_length_eq]
  exact sum_filter_key_le Prod.fst (fun r => r.2.2 ≠ FVal.nan)
    (sents.map Prod.fst) hsnd stock

/-- C6. The joined table never contains a row whose return is unset; its
rows are strictly ascending in `trading_day`; a trading day appears in it
exactly when it appears both among the sentiment summaries and among the
stock rows with a non-`NaN` return; and its size is at most the smaller of
the two sides (counting only valid-return stock rows). -/
theorem joiner_spec (sents : List (ℕ × ℚ × ℕ)) (stock : List (ℕ × ℚ × FVal))
    (hs : (sents.map Prod.fst).Pairwise (· < ·))
    (hr : (stock.map Prod.fst).Nodup) :
    (∀ row ∈ dropna_returns (merge_inner sents stock),
      row.daily_return ≠ FVal.nan) ∧
    ((dropna_returns (merge_inner sents stock)).map
      (fun row => row.trading_day)).Pairwise (· < ·) ∧
    (∀ d, (∃ row ∈ dropna_returns (merge_inner sents stock),
        row.trading_day = d) ↔
      (d ∈ sents.map Prod.fst ∧ ∃ r ∈ stock, r.1 = d ∧ r.2.2 ≠ FVal.nan)) ∧
    (dropna_returns (merge_inner sents stock)).length ≤
      min sents.length (stock.filter (fun r => r.2.2 ≠ FVal.nan)).length := by
  have hsnd : (sents.map Prod.fst).Nodup :=
    hs.imp (fun h => Nat.ne_of_lt h)
  refine ⟨?_, ?_, ?_, ?_⟩
  · intro row hrow
    have := (List.mem_filter.1 hrow).2
    simpa using this
  · rw [List.pairwise_map]
    exact dropna_merge_pairwise stock hr sents hs
  · intro d
    constructor
    · rintro ⟨row, hrow, rfl⟩
      obtain ⟨hmem, hvalid⟩ := List.mem_filter.1 hrow
      obtain ⟨s, hsmem, r, hrmem, hkey, hrow_eq⟩ := mem_merge_inner.1 hmem
      have h1 : row.trading_day = s.1 := by rw [hrow_eq]
      have h2 : row.daily_return = r.2.2 := by rw [hrow_eq]
      refine ⟨h1 ▸ List.mem_map_of_mem Prod.fst hsmem, r, hrmem, ?_, ?_⟩
      · rw [hkey, h1]
      · rw [← h2]
        simpa using hvalid
    · rintro ⟨hd, r, hrmem, hrkey, hrvalid⟩
      obtain ⟨s, hsmem, hskey⟩ := List.mem_map.1 hd
      refine ⟨⟨s.1, s.2.1, s.2.2, r.2.2, r.2.1⟩, ?_, hskey⟩
      apply List.mem_filter.2
      refine ⟨mem_merge_inner.2 ⟨s, hsmem, r, hrmem, ?_, rfl⟩, ?_⟩
      · rw [hrkey, hskey]
      · simpa using hrvalid
  · exact le_min (dropna_merge_length_le_sents sents stock hr)
      (dropna_merge_length_le_valid sents stock hsnd)

/-- Witness for C6 on summaries for days 2 and 3 and stock rows for days
1, 2, 3 (day 1 has the unset first return): only day 2 and day 3 survive. -/
theorem joiner_spec_witness :
    (∀ row ∈ dropna_returns (merge_inner [(2, 1, 1), (3, 1/2, 2)]
        [(1, 100, FVal.nan), (2, 110, FVal.val 10), (3, 99, FVal.val (-10))]),
      row.daily_return ≠ FVal.nan) ∧
    ((dropna_returns (merge_inner [(2, 1, 1), (3, 1/2, 2)]
        [(1, 100, FVal.nan), (2, 110, FVal.val 10), (3, 99, FVal.val (-10))])).map
      (fun row => row.trading_day)).Pairwise (· < ·) ∧
    (∀ d, (∃ row ∈ dropna_returns (merge_inner [(2, 1, 1), (3, 1/2, 2)]
        [(1, 100, FVal.nan), (2, 110, FVal.val 10), (3, 99, FVal.val (-10))]),
        row.trading_day = d) ↔
      (d ∈ ([(2, 1, 1), (3, 1/2, 2)] : List (ℕ × ℚ × ℕ)).map Prod.fst ∧
        ∃ r ∈ ([(1, 100, FVal.nan), (2, 110, FVal.val 10),
          (3, 99, FVal.val (-10))] : List (ℕ × ℚ × FVal)),
          r.1 = d ∧ r.2.2 ≠ FVal.nan)) ∧
    (dropna_returns (merge_inner [(2, 1, 1), (3, 1/2, 2)]
        [(1, 100, FVal.nan), (2, 110, FVal.val 10), (3, 99, FVal.val (-10))])).length ≤
      min ([(2, 1, 1), (3, 1/2, 2)] : List (ℕ × ℚ × ℕ)).length
        (([(1, 100, FVal.nan), (2, 110, FVal.val 10),
          (3, 99, FVal.val (-10))] : List (ℕ × ℚ × FVal)).filter
          (fun r => r.2.2 ≠ FVal.nan)).length :=
  joiner_spec [(2, 1, 1), (3, 1/2, 2)]
    [(1, 100, FVal.nan), (2, 110, FVal.val 10), (3, 99, FVal.val (-10))]
    (by decide) (by decide)

/-- C3. A zero previous close is not failed and flagged: on the price
table `[(1, 0), (2, 100), (3, 110)]` the `pct_change` of day 2 is `+inf`
(division of `100 - 0` by `0`), `dropna(subset=['daily_return'])` removes
only `NaN`, and the infinite value survives into the joined table consumed
by the correlation estimator. -/
theorem zero_close_infinity_propagates :
    calculate_daily_metrics [(2, 1/2), (3, 1/4)] [(1, 0), (2, 100), (3, 110)] =
      [⟨2, 1/2, 1, FVal.inf, 100⟩, ⟨3, 1/4, 1, FVal.val 10, 110⟩] := by
  norm_num [calculate_daily_metrics, daily_sentiment, groupKeys, sentOn,
    merge_inner, dropna_returns, stock_with_returns, dailyReturns,
    pctChangeTail, pctChangeAt, List.insertionSort, List.orderedInsert]
  decide

/-- C9. A price table with two bars on day 6 is not rejected: the pipeline
runs through and the joined table contains two rows for trading day 6, one
per duplicate bar. -/
theorem duplicate_dates_pass_through :
    calculate_daily_metrics [(6, 1)] [(5, 100), (6, 100), (6, 110)] =
      [⟨6, 1, 1, FVal.val 0, 100⟩, ⟨6, 1, 1, FVal.val 10, 110⟩] := by
  norm_num [calculate_daily_metrics, daily_sentiment, groupKeys, sentOn,
    merge_inner, dropna_returns, stock_with_returns, dailyReturns,
    pctChangeTail, pctChangeAt, List.insertionSort, List.orderedInsert]
  decide

/-- Is a rational column constant (zero variance)? -/
def constantCol (xs : List ℚ) : Bool :=
  match xs with
  | [] => true
  | x :: rest => rest.all (fun y => y = x)

/-- Is a return cell a finite number? -/
def isFiniteF : FVal → Bool
  | FVal.val _ => true
  | _ => false

/-- Is a return column constant? -/
def constantColF (ys : List FVal) : Bool :=
  match ys with
  | [] => true
  | y :: rest => rest.all (fun z => z = y)

/-- The three kinds of outcome `scipy.stats.pearsonr` can have. -/
inductive CorrOutcome where
  | valueError : CorrOutcome
  | nanResult : CorrOutcome
  | finite : CorrOutcome
deriving DecidableEq, Repr

/-- Classification of `pearsonr(x, y)` as called by `calculate_correlation`
(src/news_stock_correlation.py lines 126-142).  scipy raises `ValueError`
when an input has fewer than two observations; it returns `(nan, nan)` (with
a warning) when an input contains a non-finite value or is constant; in all
other cases it returns a finite `(r, p)` pair.  The numeric value of a
finite `r` involves a real square root and is abstracted to its class,
which is all the error-handling contract refers to. -/
def pearsonClass (xs : List ℚ) (ys : List FVal) : CorrOutcome :=
  if xs.length < 2 ∨ ys.length < 2 then CorrOutcome.valueError
  else if ¬ (ys.all isFiniteF) then CorrOutcome.nanResult
  else if constantCol xs ∨ constantColF ys then CorrOutcome.nanResult
  else CorrOutcome.finite

/-- A Python value stored in the dict returned by `run_analysis`.  The
correlation and p-value cells carry the outcome class of `pearsonr`. -/
inductive PyVal where
  | str : String → PyVal
  | corr : CorrOutcome → PyVal
  | count : ℕ → PyVal
deriving DecidableEq, Repr

/-- `align_dates` (lines 58-78): apply `adjust_to_trading_day` to every
news date; if the loop hangs on any of them the whole run never returns. -/
def align_all (td : List ℕ) (fuel : ℕ) : List (ℕ × ℚ) → Option (List (ℕ × ℚ))
  | [] => some []
  | e :: rest =>
    match adjust_to_trading_day td fuel e.1, align_all td fuel rest with
    | some d, some tl => some ((d, e.2) :: tl)
    | _, _ => none

/-- Embedding of `run_analysis` (lines 214-249).  `loaded = none` models
`load_data()` returning `False` (missing required columns or a read
failure); otherwise `some (news, stock)` carries the scored news rows and
the price rows.  The sentiment scorer is the external TextBlob
collaborator, so news rows enter already scored.  A `ValueError` raised by
`pearsonr` is re-raised by `calculate_correlation` and caught by the
`except` block of `run_analysis`, which returns the one-key error dict.
The overall `none` models a run that never terminates (the alignment
loop). -/
def run_analysis (symbol : String) (output_dir : String)
    (loaded : Option (List (ℕ × ℚ) × List (ℕ × ℚ))) (fuel : ℕ) :
    Option (List (String × PyVal)) :=
  match loaded with
  | none => some [("error", PyVal.str "Data loading failed")]
  | some (news, stock) =>
    match align_all ((stock.map Prod.fst).dedup) fuel news with
    | none => none
    | some aligned =>
      match pearsonClass
          ((calculate_daily_metrics aligned stock).map
            (fun row => row.avg_sentiment))
          ((calculate_daily_metrics aligned stock).map
            (fun row => row.daily_return)) with
      | CorrOutcome.valueError =>
          some [("error", PyVal.str "x and y must have length at least 2.")]
      | outcome =>
          some [("symbol", PyVal.str symbol),
            ("correlation", PyVal.corr outcome),
            ("p_value", PyVal.corr outcome),
            ("num_observations",
              PyVal.count (calculate_daily_metrics aligned stock).length),
            ("merged_data_path",
              PyVal.str (output_dir ++ "/" ++ symbol ++ "_news_stock_merged.csv")),
            ("visualization_path",
              PyVal.str (output_dir ++ "/" ++ symbol ++ "_correlation_plot.png"))]

/-- C4. `pearsonr` on a constant sentiment column of length 2 returns the
`(nan, nan)` result instead of failing; with a single observation it raises
`ValueError`; and a full run over news with identical sentiment on two
trading days finishes with a complete results record whose correlation
cell is the silent `NaN`, not a `DegenerateInputError`. -/
theorem constant_sentiment_silent_nan :
    pearsonClass [1, 1] [FVal.val 2, FVal.val 4] = CorrOutcome.nanResult ∧
    pearsonClass [1] [FVal.val 2] = CorrOutcome.valueError ∧
    run_analysis "AAPL" "results"
      (some ([(2, 1), (3, 1)], [(1, 100), (2, 110), (3, 99)])) 5 =
      some [("symbol", PyVal.str "AAPL"),
        ("correlation", PyVal.corr CorrOutcome.nanResult),
        ("p_value", PyVal.corr CorrOutcome.nanResult),
        ("num_observations", PyVal.count 2),
        ("merged_data_path", PyVal.str "results/AAPL_news_stock_merged.csv"),
        ("visualization_path", PyVal.str "results/AAPL_correlation_plot.png")] := by
  refine ⟨by decide, by decide, ?_⟩
  have hm : calculate_daily_metrics [(2, 1), (3, 1)] [(1, 100), (2, 110), (3, 99)] =
      [⟨2, 1, 1, FVal.val 10, 110⟩, ⟨3, 1, 1, FVal.val (-10), 99⟩] := by
    norm_num [calculate_daily_metrics, daily_sentiment, groupKeys, sentOn,
      merge_inner, dropna_returns, stock_with_returns, dailyReturns,
      pctChangeTail, pctChangeAt, List.insertionSort, List.orderedInsert]
    decide
  have ha : align_all ((([(1, (100:ℚ)), (2, 110), (3, 99)] : List (ℕ × ℚ)).map
        Prod.fst).dedup) 5 [(2, 1), (3, 1)] = some [(2, 1), (3, 1)] := by
    norm_num [align_all, adjust_to_trading_day]
  simp only [run_analysis, ha, hm]
  norm_num [pearsonClass, constantCol, constantColF, isFiniteF]
  exact ⟨rfl, rfl⟩

/-- C10. Whenever `run_analysis` returns, its dict is either the complete
six-key results record or the single-key error record: there is no partial
success state. -/
theorem run_analysis_total_or_error (symbol output_dir : String)
    (loaded : Option (List (ℕ × ℚ) × List (ℕ × ℚ))) (fuel : ℕ)
    (out : List (String × PyVal))
    (h : run_analysis symbol output_dir loaded fuel = some out) :
    out.map Prod.fst = ["symbol", "correlation", "p_value",
      "num_observations", "merged_data_path", "visualization_path"] ∨
    out.map Prod.fst = ["error"] := by
  unfold run_analysis at h
  split at h
  · have := Option.some.inj h
    subst this
    right
    rfl
  · split at h
    · exact absurd h (by simp)
    · split at h
      · have := Option.some.inj h
        subst this
        right
        rfl
      · have := Option.some.inj h
        subst this
        left
        rfl

/-- Witness for C10: a run whose data loading fails returns exactly the
one-key error dict. -/
theorem run_analysis_total_or_error_witness :
    ([("error", PyVal.str "Data loading failed")].map Prod.fst) =
      ["symbol", "correlation", "p_value", "num_observations",
        "merged_data_path", "visualization_path"] ∨
    ([("error", PyVal.str "Data loading failed")].map Prod.fst) = ["error"] :=
  run_analysis_total_or_error "AAPL" "results" none 0
    [("error", PyVal.str "Data loading failed")] rfl

end NewsStock
